import Mathlib

/-!
Verification of the palette-extraction pipeline in
src/extract_colorblind_safe_palettes.py (function
extract_colorblind_safe_palette).

Embedding conventions:
* Machine floats are modelled by exact rationals.
* A pixel color and a Lab value are both 3-vectors of rationals.
* The external library calls are modelled as parameters of the embedded
  pipeline: the KMeans output (cluster centroid colors and per-pixel
  labels, deterministic because random_state is fixed to 42) and the
  skimage rgb2lab conversion (an arbitrary function lab on 3-vectors).
  Everything the script itself computes from those values is embedded
  faithfully from the source.
* The comparison dE < deltaE_thresh on the Euclidean norm of a Lab
  difference is embedded on squared distances (dE_lt below); lemma
  dE_lt_iff_real_norm proves it equivalent to the comparison of the real
  square-root norm against the threshold.
-/

namespace ColorBlindSafe

/-- A 3-component vector of rationals: an RGB color in [0,1] per channel,
or a Lab coordinate. -/
abbrev Vec3 := ℚ × ℚ × ℚ

/-- A 3 x 3 matrix given as its three rows. -/
abbrev Mat3 := Vec3 × Vec3 × Vec3

/-- Dot product of two 3-vectors. -/
def dot3 (a b : Vec3) : ℚ :=
  a.1 * b.1 + a.2.1 * b.2.1 + a.2.2 * b.2.2

/-- np.clip of a scalar to the interval [0, 1]. -/
def clip01 (x : ℚ) : ℚ := max 0 (min x 1)

/-- Componentwise np.clip of a 3-vector to [0, 1]. -/
def clipVec (v : Vec3) : Vec3 := (clip01 v.1, clip01 v.2.1, clip01 v.2.2)

/-- The product rgb @ matrix.T : component i is the dot product of rgb with
row i of the matrix. -/
def matVecT (rgb : Vec3) (m : Mat3) : Vec3 :=
  (dot3 rgb m.1, dot3 rgb m.2.1, dot3 rgb m.2.2)

/-- simulate_cb from the source: np.clip(rgb @ matrix.T, 0, 1). -/
def simulate_cb (rgb : Vec3) (matrix : Mat3) : Vec3 :=
  clipVec (matVecT rgb matrix)

/-- The protanopia simulation matrix from CB_MATRICES. -/
def protanopia : Mat3 :=
  ((56667/100000, 43333/100000, 0),
   (55833/100000, 44167/100000, 0),
   (0, 24167/100000, 75833/100000))

/-- The deuteranopia simulation matrix from CB_MATRICES. -/
def deuteranopia : Mat3 :=
  ((625/1000, 375/1000, 0),
   (70/100, 30/100, 0),
   (0, 30/100, 70/100))

/-- The tritanopia simulation matrix from CB_MATRICES. -/
def tritanopia : Mat3 :=
  ((95/100, 5/100, 0),
   (0, 43333/100000, 56667/100000),
   (0, 475/1000, 525/1000))

/-- CB_MATRICES.values() in iteration order of the source dict. -/
def CB_MATRICES : List Mat3 := [protanopia, deuteranopia, tritanopia]

/-- Squared Euclidean distance of two 3-vectors. -/
def sqDist (a b : Vec3) : ℚ :=
  (a.1 - b.1) ^ 2 + (a.2.1 - b.2.1) ^ 2 + (a.2.2 - b.2.2) ^ 2

/-- The comparison np.linalg.norm(a - b) < t, carried out on squared
distances so it stays inside the rationals: the norm (a nonnegative real)
is below t exactly when t is positive and the squared distance is below
t squared.  Lemma dE_lt_iff_real_norm justifies this. -/
def dE_lt (a b : Vec3) (t : ℚ) : Bool :=
  decide (0 < t ∧ sqDist a b < t ^ 2)

/-- The strict comparison np.linalg.norm(a - b) > t on squared distances;
used only to state the spec reading in which a safe color must strictly
exceed the threshold distance. -/
def dE_gt (a b : Vec3) (t : ℚ) : Bool :=
  decide (t < 0 ∨ t ^ 2 < sqDist a b)

/-- The simulated colors of the palette under one deficiency matrix,
already converted by the (parametric) rgb2lab map: sim_lab in the source. -/
def simLabs (lab : Vec3 → Vec3) (colors : List Vec3) (mat : Mat3) : List Vec3 :=
  (colors.map (fun c => simulate_cb c mat)).map lab

/-- The inner j-loop of the safety test for color index i, entered with
running index j: on the first j with i != j and dE below the threshold it
breaks out returning false (is_safe = False), otherwise it scans on. -/
def innerScan (labI : Vec3) (t : ℚ) (i : ℕ) : ℕ → List Vec3 → Bool
  | _, [] => true
  | j, v :: rest =>
      if i ≠ j ∧ dE_lt labI v t = true then false
      else innerScan labI t i (j + 1) rest

/-- The outer loop of the safety test for color index i over the deficiency
matrices: for each matrix it recomputes sim_lab, runs the inner scan from
j = 0, and breaks out with false as soon as the color became unsafe. -/
def modelScan (lab : Vec3 → Vec3) (colors : List Vec3) (i : ℕ) (t : ℚ) :
    List Mat3 → Bool
  | [] => true
  | mat :: rest =>
      if innerScan ((simLabs lab colors mat).getD i (0, 0, 0)) t i 0
          (simLabs lab colors mat) = false then false
      else modelScan lab colors i t rest

/-- safe_flags from the source: one boolean per color index. -/
def safeFlags (lab : Vec3 → Vec3) (colors : List Vec3) (t : ℚ) : List Bool :=
  (List.range colors.length).map (fun i => modelScan lab colors i t CB_MATRICES)

/-- The fully quantified safety property (no short-circuit): under every
deficiency matrix, the simulated Lab distance from entry i to every other
entry j is not strictly below the threshold. -/
def allFarFrom (lab : Vec3 → Vec3) (colors : List Vec3) (t : ℚ) (i : ℕ) : Prop :=
  ∀ mat ∈ CB_MATRICES, ∀ j < colors.length, i ≠ j →
    dE_lt ((simLabs lab colors mat).getD i (0, 0, 0))
      ((simLabs lab colors mat).getD j (0, 0, 0)) t = false

/-- The strict spec reading of safety: under every deficiency matrix the
distance from entry i to every other entry strictly exceeds the threshold. -/
def allExceed (lab : Vec3 → Vec3) (colors : List Vec3) (t : ℚ) (i : ℕ) : Prop :=
  ∀ mat ∈ CB_MATRICES, ∀ j < colors.length, i ≠ j →
    dE_gt ((simLabs lab colors mat).getD i (0, 0, 0))
      ((simLabs lab colors mat).getD j (0, 0, 0)) t = true

/-- Truncation toward zero of a rational, the semantics of both the Python
int() call in the resize step and numpy astype(int). -/
def truncQ (q : ℚ) : ℤ := if q < 0 then ⌈q⌉ else ⌊q⌋

/-- Round-half-to-even of a rational to an integer, the semantics of the
Python builtin round on the exact value. -/
def roundHalfEven (q : ℚ) : ℤ :=
  if q - ⌊q⌋ < 1/2 then ⌊q⌋
  else if 1/2 < q - ⌊q⌋ then ⌊q⌋ + 1
  else if ⌊q⌋ % 2 = 0 then ⌊q⌋ else ⌊q⌋ + 1

/-- round(q, 1) from the source: round to one decimal place. -/
def round1 (q : ℚ) : ℚ := (roundHalfEven (10 * q) : ℚ) / 10

/-- The sixteen uppercase hexadecimal digit characters. -/
def HEX_DIGITS : List Char :=
  ['0', '1', '2', '3', '4', '5', '6', '7', '8', '9', 'A', 'B', 'C', 'D', 'E', 'F']

/-- The uppercase hexadecimal digit of value n (n < 16). -/
def hexDigit (n : ℕ) : Char := HEX_DIGITS.getD n 'X'

/-- Python format {:02X} of a byte value 0 <= n < 256: exactly two uppercase
hexadecimal digits. -/
def byteHex (n : ℕ) : String := String.mk [hexDigit (n / 16), hexDigit (n % 16)]

/-- The hex string of the source, "#{:02X}{:02X}{:02X}".format on the three
byte components. -/
def hexOf (r g b : ℕ) : String := "#" ++ byteHex r ++ byteHex g ++ byteHex b

/-- Value of one uppercase hexadecimal digit character, none if it is not
such a digit. -/
def hexVal (c : Char) : Option ℕ := HEX_DIGITS.findIdx? (fun d => d = c)

/-- Decoder of a seven-character string of the shape produced by hexOf:
a hash sign followed by three pairs of uppercase hexadecimal digits,
yielding the three byte values. -/
def decodeHex (s : String) : Option (ℤ × ℤ × ℤ) :=
  match s.data with
  | [hash, a, b, c, d, e, f] =>
      if hash = '#' then
        match hexVal a, hexVal b, hexVal c, hexVal d, hexVal e, hexVal f with
        | some va, some vb, some vc, some vd, some ve, some vf =>
            some ((va * 16 + vb : ℕ), (vc * 16 + vd : ℕ), (ve * 16 + vf : ℕ))
        | _, _, _, _, _, _ => none
      else none
  | _ => none

/-- One returned palette entry: the dictionary with exactly the four keys
hex, rgb, frequency, colorblind_safe, rendered as a fixed-shape record. -/
structure PaletteEntry where
  hex : String
  rgb : ℤ × ℤ × ℤ
  frequency : ℚ
  colorblind_safe : Bool
deriving DecidableEq

/-- Construction of one palette entry from a centroid color, its frequency
percentage and its safety flag, as in the results loop of the source:
rgb255 = tuple((rgb * 255).astype(int)), the format string, round(f, 1). -/
def mkEntry (rgb : Vec3) (f : ℚ) (safe : Bool) : PaletteEntry :=
  let r := truncQ (rgb.1 * 255)
  let g := truncQ (rgb.2.1 * 255)
  let b := truncQ (rgb.2.2 * 255)
  { hex := hexOf r.toNat g.toNat b.toNat
    rgb := (r, g, b)
    frequency := round1 f
    colorblind_safe := safe }

/-- counts of the source: Counter(labels) read off at the indices
0, ..., n_colors - 1 (a Counter returns 0 for an absent key, so an empty
cluster contributes a zero count). -/
def countsOf (labels : List ℕ) (n_colors : ℕ) : List ℕ :=
  (List.range n_colors).map (fun i => labels.count i)

/-- freqs of the source: each count divided by the total and scaled to a
percentage. -/
def freqsOf (counts : List ℕ) : List ℚ :=
  counts.map (fun k : ℕ => (k : ℚ) / (counts.sum : ℚ) * 100)

/-- The zip of the results loop: one entry per (centroid, frequency, flag)
triple, truncating at the shortest list exactly as Python zip does. -/
def buildResults (colors : List Vec3) (freqs : List ℚ) (flags : List Bool) :
    List PaletteEntry :=
  (colors.zip (freqs.zip flags)).map (fun p => mkEntry p.1 p.2.1 p.2.2)

/-- results.sort(key = minus frequency): a stable sort into descending
frequency order. -/
def sortResults (rs : List PaletteEntry) : List PaletteEntry :=
  rs.mergeSort (fun a b => decide (b.frequency ≤ a.frequency))

/-- The value returned by extract_colorblind_safe_palette, as a function of
the modelled KMeans output (centroid colors and per-pixel labels), the
modelled rgb2lab map, the cluster count and the threshold. -/
def extract_palette (lab : Vec3 → Vec3) (kcolors : List Vec3)
    (labels : List ℕ) (n_colors : ℕ) (t : ℚ) : List PaletteEntry :=
  sortResults
    (buildResults kcolors (freqsOf (countsOf labels n_colors))
      (safeFlags lab kcolors t))

/-- The (w, h) pixel size of the preprocessed image: scale = resize / max,
downscaled by int(w * scale), int(h * scale) only when scale < 1. -/
def resizedSize (w h : ℕ) (resize : ℚ) : ℕ × ℕ :=
  if resize / ((max w h : ℕ) : ℚ) < 1 then
    ((truncQ ((w : ℚ) * (resize / ((max w h : ℕ) : ℚ)))).toNat,
     (truncQ ((h : ℚ) * (resize / ((max w h : ℕ) : ℚ)))).toNat)
  else (w, h)

/-- The two files the call can write. -/
inductive FileWrite
  | txt
  | fig
deriving DecidableEq

/-- Observable outcome of one invocation: the files written, in order, and
the returned list (none when an exception propagated out of the call). -/
structure RunOutcome where
  writes : List FileWrite
  retval : Option (List PaletteEntry)
deriving DecidableEq

/-- Effect-trace model of one invocation.  loadOk models whether
Image.open succeeds (it is the first statement after path setup, so on
failure nothing has been written); plotOk models whether the plotting
stage, including savefig, succeeds.  The text write happens after the
palette computation and before the plotting block, exactly as in the
source; the figure write happens inside the plotting block only when both
plot and save are set. -/
def runPipeline (loadOk : Bool) (lab : Vec3 → Vec3) (kcolors : List Vec3)
    (labels : List ℕ) (n_colors : ℕ) (t : ℚ) (save plot plotOk : Bool) :
    RunOutcome :=
  if loadOk = false then { writes := [], retval := none }
  else if plot = false then
    { writes := if save then [FileWrite.txt] else []
      retval := some (extract_palette lab kcolors labels n_colors t) }
  else if plotOk = false then
    { writes := if save then [FileWrite.txt] else []
      retval := none }
  else
    { writes := (if save then [FileWrite.txt] else [])
        ++ (if save then [FileWrite.fig] else [])
      retval := some (extract_palette lab kcolors labels n_colors t) }

instance (lab : Vec3 → Vec3) (colors : List Vec3) (t : ℚ) (i : ℕ) :
    Decidable (allFarFrom lab colors t i) := by
  unfold allFarFrom; exact inferInstance

instance (lab : Vec3 → Vec3) (colors : List Vec3) (t : ℚ) (i : ℕ) :
    Decidable (allExceed lab colors t i) := by
  unfold allExceed; exact inferInstance

/-- The squared distance is symmetric in its arguments. -/
theorem sqDist_comm (a b : Vec3) : sqDist a b = sqDist b a := by
  unfold sqDist; ring

/-- The embedded below-threshold test is symmetric in the two colors. -/
theorem dE_lt_comm (a b : Vec3) (t : ℚ) : dE_lt a b t = dE_lt b a t := by
  unfold dE_lt; rw [sqDist_comm]

/-- Faithfulness of the squared-distance embedding: the real Euclidean norm
of the difference (the square root of sqDist) is below the threshold exactly
when dE_lt holds. -/
theorem dE_lt_iff_real_norm (a b : Vec3) (t : ℚ) :
    Real.sqrt ((sqDist a b : ℚ) : ℝ) < (t : ℝ) ↔ dE_lt a b t = true := by
  unfold dE_lt
  rw [decide_eq_true_eq]
  constructor
  · intro h
    have ht : (0 : ℝ) < (t : ℝ) := lt_of_le_of_lt (Real.sqrt_nonneg _) h
    have hx := (Real.sqrt_lt' ht).mp h
    refine ⟨by exact_mod_cast ht, ?_⟩
    exact_mod_cast hx
  · rintro ⟨ht, hlt⟩
    have ht2 : (0 : ℝ) < (t : ℝ) := by exact_mod_cast ht
    rw [Real.sqrt_lt' ht2]
    exact_mod_cast hlt

/-- Faithfulness of the strict spec-side comparison: the real norm strictly
exceeds the threshold exactly when dE_gt holds. -/
theorem dE_gt_iff_real_norm (a b : Vec3) (t : ℚ) :
    (t : ℝ) < Real.sqrt ((sqDist a b : ℚ) : ℝ) ↔ dE_gt a b t = true := by
  unfold dE_gt
  rw [decide_eq_true_eq]
  have hsq : (0 : ℝ) ≤ ((sqDist a b : ℚ) : ℝ) := by
    have : (0 : ℚ) ≤ sqDist a b := by unfold sqDist; positivity
    exact_mod_cast this
  constructor
  · intro h
    rcases lt_or_le t 0 with ht | ht
    · exact Or.inl ht
    · refine Or.inr ?_
      have ht2 : (0 : ℝ) ≤ (t : ℝ) := by exact_mod_cast ht
      have := (Real.lt_sqrt ht2).mp h
      exact_mod_cast this
  · rintro (ht | hlt)
    · have ht2 : (t : ℝ) < 0 := by exact_mod_cast ht
      exact lt_of_lt_of_le ht2 (Real.sqrt_nonneg _)
    · rcases lt_or_le t 0 with ht | ht
      · have ht2 : (t : ℝ) < 0 := by exact_mod_cast ht
        exact lt_of_lt_of_le ht2 (Real.sqrt_nonneg _)
      · have ht2 : (0 : ℝ) ≤ (t : ℝ) := by exact_mod_cast ht
        rw [Real.lt_sqrt ht2]
        exact_mod_cast hlt

/-- The inner j-loop, entered at running index j, reports safe exactly when
no later index k hits a below-threshold distance (skipping the index equal
to i). -/
theorem innerScan_iff (labI : Vec3) (t : ℚ) (i : ℕ) (l : List Vec3) (j : ℕ) :
    innerScan labI t i j l = true ↔
      ∀ k, k < l.length → i ≠ j + k →
        dE_lt labI (l.getD k (0, 0, 0)) t = false := by
  induction l generalizing j with
  | nil => simp [innerScan]
  | cons v rest ih =>
      rw [innerScan]
      by_cases h : i ≠ j ∧ dE_lt labI v t = true
      · rw [if_pos h]
        constructor
        · intro hc; exact Bool.noConfusion hc
        · intro hall
          exfalso
          have h0 := hall 0 (Nat.succ_pos _) (by simpa using h.1)
          rw [List.getD_cons_zero, h.2] at h0
          exact Bool.noConfusion h0
      · rw [if_neg h, ih (j + 1)]
        have hv : i ≠ j → dE_lt labI v t = false := by
          intro hij
          cases hx : dE_lt labI v t with
          | false => rfl
          | true => exact absurd ⟨hij, hx⟩ h
        constructor
        · intro hall k hk hne
          cases k with
          | zero =>
              rw [List.getD_cons_zero]
              exact hv (by simpa using hne)
          | succ m =>
              rw [List.getD_cons_succ]
              refine hall m ?_ ?_
              · simp only [List.length_cons] at hk
                omega
              · omega
        · intro hall k hk hne
          have hm := hall (k + 1) (by simp only [List.length_cons]; omega) (by omega)
          rwa [List.getD_cons_succ] at hm

/-- The outer loop over the deficiency matrices reports safe exactly when
the inner scan reports safe for every matrix in the list. -/
theorem modelScan_iff (lab : Vec3 → Vec3) (colors : List Vec3) (i : ℕ) (t : ℚ)
    (mats : List Mat3) :
    modelScan lab colors i t mats = true ↔
      ∀ mat ∈ mats,
        innerScan ((simLabs lab colors mat).getD i (0, 0, 0)) t i 0
          (simLabs lab colors mat) = true := by
  induction mats with
  | nil => simp [modelScan]
  | cons mat rest ih =>
      rw [modelScan]
      by_cases h : innerScan ((simLabs lab colors mat).getD i (0, 0, 0)) t i 0
          (simLabs lab colors mat) = false
      · rw [if_pos h]
        constructor
        · intro hc; exact Bool.noConfusion hc
        · intro hall
          have := hall mat (List.mem_cons_self _ _)
          rw [h] at this
          exact Bool.noConfusion this
      · rw [if_neg h, ih]
        have ht : innerScan ((simLabs lab colors mat).getD i (0, 0, 0)) t i 0
            (simLabs lab colors mat) = true := by
          cases hx : innerScan ((simLabs lab colors mat).getD i (0, 0, 0)) t i 0
              (simLabs lab colors mat) with
          | false => exact absurd hx h
          | true => rfl
        constructor
        · intro hall mat2 hmem
          rcases List.mem_cons.mp hmem with heq | hmem2
          · subst heq; exact ht
          · exact hall mat2 hmem2
        · intro hall mat2 hmem
          exact hall mat2 (List.mem_cons_of_mem _ hmem)

/-- Reading the flag list at a valid index gives the outer-loop verdict for
that color. -/
theorem safeFlags_getD (lab : Vec3 → Vec3) (colors : List Vec3) (t : ℚ)
    (i : ℕ) (h : i < colors.length) :
    (safeFlags lab colors t).getD i false =
      modelScan lab colors i t CB_MATRICES := by
  unfold safeFlags
  have hlen : i < ((List.range colors.length).map
      (fun i => modelScan lab colors i t CB_MATRICES)).length := by
    simpa using h
  rw [List.getD_eq_getElem _ _ hlen, List.getElem_map, List.getElem_range]

/-- The short-circuiting loop computes exactly the fully quantified safety
property: the flag of color i is true exactly when no other color sits
below the threshold distance under any deficiency matrix. -/
theorem safeFlags_true_iff (lab : Vec3 → Vec3) (colors : List Vec3) (t : ℚ)
    (i : ℕ) (h : i < colors.length) :
    (safeFlags lab colors t).getD i false = true ↔
      allFarFrom lab colors t i := by
  rw [safeFlags_getD lab colors t i h, modelScan_iff]
  unfold allFarFrom
  constructor
  · intro hall mat hmat j hj hne
    have hin := (innerScan_iff _ t i _ 0).mp (hall mat hmat) j
      (by simpa [simLabs] using hj) (by simpa using hne)
    simpa using hin
  · intro hall mat hmat
    rw [innerScan_iff]
    intro k hk hne
    exact hall mat hmat k (by simpa [simLabs] using hk) (by simpa using hne)

/-- Contrapositive form: the flag of color i is false exactly when some
other color sits below the threshold distance under some matrix. -/
theorem safeFlags_false_iff (lab : Vec3 → Vec3) (colors : List Vec3) (t : ℚ)
    (i : ℕ) (h : i < colors.length) :
    (safeFlags lab colors t).getD i false = false ↔
      ¬ allFarFrom lab colors t i := by
  rw [← safeFlags_true_iff lab colors t i h]
  cases hx : (safeFlags lab colors t).getD i false <;> simp [hx]

/-- With a single extracted color the outer loop always reports safe: the
inner loop only meets the index equal to i and skips it. -/
theorem modelScan_single (lab : Vec3 → Vec3) (c : Vec3) (t : ℚ)
    (mats : List Mat3) : modelScan lab [c] 0 t mats = true := by
  induction mats with
  | nil => rfl
  | cons mat rest ih =>
      rw [modelScan]
      have hinner : innerScan ((simLabs lab [c] mat).getD 0 (0, 0, 0)) t 0 0
          (simLabs lab [c] mat) = true := by
        simp [simLabs, innerScan]
      rw [hinner]
      simpa using ih

/-- The below-threshold test always fires on two equal colors when the
threshold is positive, since their distance is zero. -/
theorem dE_lt_self (a : Vec3) (t : ℚ) (ht : 0 < t) : dE_lt a a t = true := by
  have h0 : sqDist a a = 0 := by unfold sqDist; ring
  simp only [dE_lt, h0, decide_eq_true_eq]
  exact ⟨ht, by positivity⟩

/-- C1 (counterexample): the claim reads the safe flag as equivalent to
every pairwise simulated distance strictly exceeding deltaE_thresh.  At a
configuration where a pairwise distance equals the threshold exactly (two
colors whose simulated Lab images are at distance exactly 1, threshold 1),
the code keeps the flag true although the distance does not exceed the
threshold, so the strict reading is false. -/
theorem C1_strict_reading_false :
    (safeFlags (fun v => (v.1, 0, 0))
        [((0 : ℚ), (0 : ℚ), (0 : ℚ)), ((1 : ℚ), (1 : ℚ), (1 : ℚ))] 1).getD 0 false = true
      ∧ ¬ allExceed (fun v => (v.1, 0, 0))
          [((0 : ℚ), (0 : ℚ), (0 : ℚ)), ((1 : ℚ), (1 : ℚ), (1 : ℚ))] 1 0 := by
  constructor
  · rw [safeFlags_true_iff _ _ _ 0 (by decide)]
    intro mat hmat j hj hne
    simp only [CB_MATRICES, List.mem_cons, List.not_mem_nil, or_false] at hmat
    simp only [List.length_cons, List.length_nil] at hj
    interval_cases j
    · exact absurd rfl hne
    · rcases hmat with rfl | rfl | rfl <;>
        norm_num [simLabs, simulate_cb, clipVec, clip01, matVecT, dot3,
          protanopia, deuteranopia, tritanopia, min_def, max_def, dE_lt,
          sqDist, List.getD_cons_zero, List.getD_cons_succ]
  · intro h
    have hfalse := h protanopia (by simp [CB_MATRICES]) 1 (by norm_num)
      (by norm_num)
    rw [show dE_gt ((simLabs (fun v => (v.1, 0, 0))
        [((0 : ℚ), (0 : ℚ), (0 : ℚ)), ((1 : ℚ), (1 : ℚ), (1 : ℚ))] protanopia).getD 0 (0, 0, 0))
        ((simLabs (fun v => (v.1, 0, 0))
          [((0 : ℚ), (0 : ℚ), (0 : ℚ)), ((1 : ℚ), (1 : ℚ), (1 : ℚ))] protanopia).getD 1 (0, 0, 0))
        1 = false by
      norm_num [simLabs, simulate_cb, clipVec, clip01, matVecT, dot3,
        protanopia, min_def, max_def, dE_gt, sqDist, List.getD_cons_zero,
        List.getD_cons_succ]] at hfalse
    exact Bool.noConfusion hfalse

/-- C1 (amended): for every color index i, the flag computed by the
short-circuiting double loop is true if and only if, under every one of the
three deficiency matrices, the simulated Lab distance from color i to every
other color is at least deltaE_thresh, i.e. never strictly below it; in
particular the short-circuit computes exactly the fully quantified
definition. -/
theorem C1_flag_iff_no_close_pair (lab : Vec3 → Vec3) (colors : List Vec3)
    (t : ℚ) (i : ℕ) (h : i < colors.length) :
    (safeFlags lab colors t).getD i false = true ↔
      allFarFrom lab colors t i :=
  safeFlags_true_iff lab colors t i h

/-- Witness for C1 at a concrete input: two colors far apart at threshold
10. -/
theorem C1_flag_iff_no_close_pair_witness :
    ((safeFlags (fun v => v)
        [((0 : ℚ), (0 : ℚ), (0 : ℚ)), ((1 : ℚ), (1 : ℚ), (1 : ℚ))] 10).getD 0 false = true ↔
      allFarFrom (fun v => v)
        [((0 : ℚ), (0 : ℚ), (0 : ℚ)), ((1 : ℚ), (1 : ℚ), (1 : ℚ))] 10 0) :=
  C1_flag_iff_no_close_pair _ _ _ _ (by decide)

/-- C9: if the simulated distance between distinct colors i and j falls
below the threshold under some deficiency matrix, then both flags are
false: unsafety is symmetric because the Euclidean distance is and the
loop checks every ordered pair. -/
theorem C9_unsafe_symmetric (lab : Vec3 → Vec3) (colors : List Vec3) (t : ℚ)
    (i j : ℕ) (hi : i < colors.length) (hj : j < colors.length) (hne : i ≠ j)
    (mat : Mat3) (hmat : mat ∈ CB_MATRICES)
    (hclose : dE_lt ((simLabs lab colors mat).getD i (0, 0, 0))
        ((simLabs lab colors mat).getD j (0, 0, 0)) t = true) :
    (safeFlags lab colors t).getD i false = false
      ∧ (safeFlags lab colors t).getD j false = false := by
  constructor
  · rw [safeFlags_false_iff lab colors t i hi]
    intro hall
    have hfar := hall mat hmat j hj hne
    rw [hclose] at hfar
    exact Bool.noConfusion hfar
  · rw [safeFlags_false_iff lab colors t j hj]
    intro hall
    have hfar := hall mat hmat i hi (Ne.symm hne)
    rw [dE_lt_comm, hclose] at hfar
    exact Bool.noConfusion hfar

/-- Witness for C9 at a concrete input: two identical colors at threshold
10 collide under protanopia, and both flags come out false. -/
theorem C9_unsafe_symmetric_witness :
    (safeFlags (fun v => v)
        [((0 : ℚ), (0 : ℚ), (0 : ℚ)), ((0 : ℚ), (0 : ℚ), (0 : ℚ))] 10).getD 0 false = false
      ∧ (safeFlags (fun v => v)
          [((0 : ℚ), (0 : ℚ), (0 : ℚ)), ((0 : ℚ), (0 : ℚ), (0 : ℚ))] 10).getD 1 false = false :=
  C9_unsafe_symmetric _ _ _ 0 1 (by decide) (by decide) (by decide)
    protanopia (by simp [CB_MATRICES])
    (by
      have h : simLabs (fun v => v)
          [((0 : ℚ), (0 : ℚ), (0 : ℚ)), ((0 : ℚ), (0 : ℚ), (0 : ℚ))] protanopia
          = [simulate_cb ((0 : ℚ), (0 : ℚ), (0 : ℚ)) protanopia,
             simulate_cb ((0 : ℚ), (0 : ℚ), (0 : ℚ)) protanopia] := rfl
      rw [h, List.getD_cons_zero, List.getD_cons_succ, List.getD_cons_zero]
      exact dE_lt_self _ _ (by norm_num))

/-- C10: with n_colors = 1 and a nonempty pixel list whose labels are all
in range (necessarily all zero), the returned palette is a single entry
with frequency 100.0 and colorblind_safe true. -/
theorem C10_single_color (lab : Vec3 → Vec3) (c : Vec3) (labels : List ℕ)
    (t : ℚ) (hne : labels ≠ []) (hlt : ∀ l ∈ labels, l < 1) :
    (extract_palette lab [c] labels 1 t).length = 1
      ∧ ∀ e ∈ extract_palette lab [c] labels 1 t,
          e.frequency = 100 ∧ e.colorblind_safe = true := by
  have hcount : labels.count 0 = labels.length :=
    List.count_eq_length.mpr (fun b hb => (Nat.lt_one_iff.mp (hlt b hb)).symm)
  have hL : (labels.length : ℚ) ≠ 0 := by
    have hz : labels.length ≠ 0 := fun h0 => hne (List.length_eq_zero.mp h0)
    exact_mod_cast hz
  have hr1 : List.range 1 = [0] := rfl
  have hext : extract_palette lab [c] labels 1 t = [mkEntry c 100 true] := by
    unfold extract_palette
    have h1 : countsOf labels 1 = [labels.length] := by
      simp [countsOf, hr1, hcount]
    have h2 : freqsOf [labels.length] = [100] := by
      have h2a : freqsOf [labels.length]
          = [(labels.length : ℚ) / (labels.length : ℚ) * 100] := rfl
      rw [h2a, div_self hL, one_mul]
    have h3 : safeFlags lab [c] t = [true] := by
      simp [safeFlags, hr1, modelScan_single]
    rw [h1, h2, h3]
    have h4 : buildResults [c] [100] [true] = [mkEntry c 100 true] := rfl
    rw [h4]
    simp [sortResults]
  rw [hext]
  refine ⟨rfl, ?_⟩
  intro e he
  rw [List.mem_singleton] at he
  subst he
  refine ⟨?_, rfl⟩
  show round1 100 = 100
  norm_num [round1, roundHalfEven]

/-- Witness for C10 at a concrete input: a single pixel labelled 0. -/
theorem C10_single_color_witness :
    (extract_palette (fun v => v) [((0 : ℚ), (0 : ℚ), (0 : ℚ))] [0] 1 10).length = 1
      ∧ ∀ e ∈ extract_palette (fun v => v) [((0 : ℚ), (0 : ℚ), (0 : ℚ))] [0] 1 10,
          e.frequency = 100 ∧ e.colorblind_safe = true :=
  C10_single_color _ _ _ _ (by decide) (by decide)

/-- The counts list always has exactly n_colors entries. -/
theorem countsOf_length (labels : List ℕ) (n : ℕ) :
    (countsOf labels n).length = n := by
  simp [countsOf]

/-- The frequency list has one entry per count. -/
theorem freqsOf_length (counts : List ℕ) :
    (freqsOf counts).length = counts.length := by
  simp [freqsOf]

/-- The flag list has one entry per centroid color. -/
theorem safeFlags_length (lab : Vec3 → Vec3) (colors : List Vec3) (t : ℚ) :
    (safeFlags lab colors t).length = colors.length := by
  simp [safeFlags]

/-- Length of the zipped results list. -/
theorem buildResults_length (c : List Vec3) (f : List ℚ) (s : List Bool) :
    (buildResults c f s).length = min c.length (min f.length s.length) := by
  simp [buildResults]

/-- The sort step is a permutation of the unsorted results. -/
theorem sortResults_perm (rs : List PaletteEntry) :
    (sortResults rs).Perm rs :=
  List.mergeSort_perm rs _

/-- The returned list has exactly n_colors entries whenever KMeans returned
n_colors centroids, whatever the labels are. -/
theorem extract_palette_length (lab : Vec3 → Vec3) (kcolors : List Vec3)
    (labels : List ℕ) (n : ℕ) (t : ℚ) (h : kcolors.length = n) :
    (extract_palette lab kcolors labels n t).length = n := by
  unfold extract_palette sortResults
  rw [List.length_mergeSort, buildResults_length, freqsOf_length,
    countsOf_length, safeFlags_length, h]
  simp

/-- Rounding half to even never moves off the floor by more than one. -/
theorem roundHalfEven_nonneg (q : ℚ) (h : 0 ≤ q) : 0 ≤ roundHalfEven q := by
  have hf : (0 : ℤ) ≤ ⌊q⌋ := Int.floor_nonneg.mpr h
  unfold roundHalfEven
  split
  · exact hf
  · split
    · omega
    · split
      · exact hf
      · omega

/-- Rounding half to even moves the value by at most one half. -/
theorem abs_roundHalfEven_sub (q : ℚ) :
    |(roundHalfEven q : ℚ) - q| ≤ 1/2 := by
  have h1 : ((⌊q⌋ : ℤ) : ℚ) ≤ q := Int.floor_le q
  have h2 : q < ⌊q⌋ + 1 := Int.lt_floor_add_one q
  unfold roundHalfEven
  split
  · next hc => rw [abs_le]; constructor <;> linarith
  · next hc =>
      split
      · next hc2 => rw [abs_le]; push_cast; constructor <;> linarith
      · next hc2 =>
          split
          · rw [abs_le]; constructor <;> linarith
          · rw [abs_le]; push_cast; constructor <;> linarith

/-- Rounding to one decimal moves the value by at most one twentieth. -/
theorem abs_round1_sub (q : ℚ) : |round1 q - q| ≤ 1/20 := by
  have h := abs_roundHalfEven_sub (10 * q)
  have heq : round1 q - q = ((roundHalfEven (10 * q) : ℚ) - 10 * q) / 10 := by
    unfold round1; ring
  rw [heq, abs_div]
  have h10 : |(10 : ℚ)| = 10 := by norm_num
  rw [h10]
  linarith [(div_le_div_iff_of_pos_right (by norm_num : (0 : ℚ) < 10)).mpr h]

/-- Rounding to one decimal preserves nonnegativity. -/
theorem round1_nonneg (q : ℚ) (h : 0 ≤ q) : 0 ≤ round1 q := by
  unfold round1
  have hr := roundHalfEven_nonneg (10 * q) (by positivity)
  have hr2 : (0 : ℚ) ≤ (roundHalfEven (10 * q) : ℚ) := by exact_mod_cast hr
  exact div_nonneg hr2 (by norm_num)

/-- Summed over a list, rounding to one decimal moves the total by at most
one twentieth per element. -/
theorem abs_sum_map_round1_sub (l : List ℚ) :
    |(l.map round1).sum - l.sum| ≤ (l.length : ℚ) * (1/20) := by
  induction l with
  | nil => simp
  | cons a ls ih =>
      have ha := abs_round1_sub a
      have hstep : (((a :: ls).map round1).sum - (a :: ls).sum)
          = (round1 a - a) + ((ls.map round1).sum - ls.sum) := by
        simp only [List.map_cons, List.sum_cons]
        ring
      calc |(((a :: ls).map round1).sum - (a :: ls).sum)|
          ≤ |round1 a - a| + |(ls.map round1).sum - ls.sum| := by
            rw [hstep]; exact abs_add _ _
        _ ≤ 1/20 + (ls.length : ℚ) * (1/20) := add_le_add ha ih
        _ = ((a :: ls).length : ℚ) * (1/20) := by
            simp only [List.length_cons]
            push_cast
            ring

/-- When every label is in range, the counts of the n_colors clusters sum
to the number of pixels. -/
theorem sum_count_eq_length (n : ℕ) :
    ∀ labels : List ℕ, (∀ l ∈ labels, l < n) →
      (∑ i ∈ Finset.range n, labels.count i) = labels.length
  | [], _ => by simp
  | a :: ls, h => by
      have ha : a < n := h a (List.mem_cons_self _ _)
      have ih := sum_count_eq_length n ls
        (fun l hl => h l (List.mem_cons_of_mem _ hl))
      calc (∑ i ∈ Finset.range n, (a :: ls).count i)
          = ∑ i ∈ Finset.range n, (ls.count i + if a = i then 1 else 0) := by
            refine Finset.sum_congr rfl (fun i _ => ?_)
            rw [List.count_cons]
            simp [beq_iff_eq]
        _ = (∑ i ∈ Finset.range n, ls.count i)
              + ∑ i ∈ Finset.range n, (if a = i then 1 else 0) :=
            Finset.sum_add_distrib
        _ = ls.length + 1 := by
            rw [ih, Finset.sum_ite_eq, if_pos (Finset.mem_range.mpr ha)]
        _ = (a :: ls).length := by simp

/-- The counts list sums to the pixel count when all labels are in range. -/
theorem countsOf_sum (labels : List ℕ) (n : ℕ) (h : ∀ l ∈ labels, l < n) :
    (countsOf labels n).sum = labels.length := by
  unfold countsOf
  have hbridge : ((List.range n).map (fun i => labels.count i)).sum
      = ∑ i ∈ Finset.range n, labels.count i := rfl
  rw [hbridge]
  exact sum_count_eq_length n labels h

/-- A scaled sum of casts of naturals. -/
theorem list_sum_map_cast_mul (l : List ℕ) (c : ℚ) :
    (l.map (fun k : ℕ => (k : ℚ) * c)).sum = (l.sum : ℚ) * c := by
  induction l with
  | nil => simp
  | cons a ls ih =>
      simp only [List.map_cons, List.sum_cons, ih]
      push_cast
      ring

/-- The exact (unrounded) frequencies sum to 100 whenever there is at least
one pixel. -/
theorem freqsOf_sum (counts : List ℕ) (h : counts.sum ≠ 0) :
    (freqsOf counts).sum = 100 := by
  unfold freqsOf
  have hcast : ((counts.sum : ℕ) : ℚ) ≠ 0 := by exact_mod_cast h
  have hfun : (fun k : ℕ => (k : ℚ) / (counts.sum : ℚ) * 100)
      = fun k : ℕ => (k : ℚ) * (100 / (counts.sum : ℚ)) := by
    funext k
    rw [div_mul_eq_mul_div, mul_div_assoc]
  rw [hfun, list_sum_map_cast_mul, mul_comm, div_mul_cancel₀ _ hcast]

/-- Every exact frequency is nonnegative. -/
theorem freqsOf_nonneg (counts : List ℕ) : ∀ f ∈ freqsOf counts, 0 ≤ f := by
  intro f hf
  unfold freqsOf at hf
  rw [List.mem_map] at hf
  rcases hf with ⟨k, _, rfl⟩
  positivity

/-- Reading the frequencies back off the built entries gives the rounded
frequency list, when the three zipped lists have equal lengths. -/
theorem buildResults_map_freq (c : List Vec3) :
    ∀ (f : List ℚ) (s : List Bool), c.length = f.length →
      f.length = s.length →
      (buildResults c f s).map (fun e => e.frequency) = f.map round1 := by
  induction c with
  | nil =>
      intro f s hcf hfs
      have hf : f = [] := List.length_eq_zero.mp hcf.symm
      subst hf
      rfl
  | cons v c ih =>
      intro f s hcf hfs
      cases f with
      | nil => exact absurd hcf (by simp)
      | cons q f2 =>
          cases s with
          | nil => exact absurd hfs (by simp)
          | cons b s2 =>
              have hcons : buildResults (v :: c) (q :: f2) (b :: s2)
                  = mkEntry v q b :: buildResults c f2 s2 := rfl
              rw [hcons, List.map_cons, List.map_cons,
                ih f2 s2 (by simpa using hcf) (by simpa using hfs)]
              rfl

/-- Every built entry arises as mkEntry of a centroid, a frequency from the
frequency list and a flag. -/
theorem buildResults_mem (c : List Vec3) (f : List ℚ) (s : List Bool)
    (e : PaletteEntry) (he : e ∈ buildResults c f s) :
    ∃ v ∈ c, ∃ q ∈ f, ∃ b, e = mkEntry v q b := by
  unfold buildResults at he
  rw [List.mem_map] at he
  rcases he with ⟨⟨v, q, b⟩, hp, rfl⟩
  have h1 := List.of_mem_zip hp
  have h2 := List.of_mem_zip h1.2
  exact ⟨v, h1.1, q, h2.1, b, rfl⟩

/-- C2: for every modelled input the returned sequence contains exactly
n_colors entries, even when some clusters receive zero pixels (the labels
list is arbitrary; only the KMeans guarantee that there are n_colors
centroids enters as a hypothesis). -/
theorem C2_entry_count (lab : Vec3 → Vec3) (kcolors : List Vec3)
    (labels : List ℕ) (n : ℕ) (t : ℚ) (h : kcolors.length = n) :
    (extract_palette lab kcolors labels n t).length = n :=
  extract_palette_length lab kcolors labels n t h

/-- Witness for C2 at a concrete input in which cluster 0 receives zero
pixels. -/
theorem C2_entry_count_witness :
    (extract_palette (fun v => v)
      [((0 : ℚ), (0 : ℚ), (0 : ℚ)), ((1 : ℚ), (1 : ℚ), (1 : ℚ))]
      [1, 1, 1] 2 10).length = 2 :=
  C2_entry_count _ _ _ _ _ rfl

/-- C3: every returned frequency is nonnegative, and the frequencies sum to
100 up to a rounding error of at most (number of entries) times 0.1 (the
proof in fact gives the tighter bound entries times 0.05, which implies the
claimed one). -/
theorem C3_frequency_sum (lab : Vec3 → Vec3) (kcolors : List Vec3)
    (labels : List ℕ) (n : ℕ) (t : ℚ) (hlen : kcolors.length = n)
    (hne : labels ≠ []) (hlab : ∀ l ∈ labels, l < n) :
    (∀ e ∈ extract_palette lab kcolors labels n t, 0 ≤ e.frequency)
      ∧ |((extract_palette lab kcolors labels n t).map
            (fun e => e.frequency)).sum - 100|
          ≤ ((extract_palette lab kcolors labels n t).length : ℚ) * (1/10) := by
  have hsum0 : (countsOf labels n).sum = labels.length := countsOf_sum labels n hlab
  have hne0 : (countsOf labels n).sum ≠ 0 := by
    rw [hsum0]
    exact fun h0 => hne (List.length_eq_zero.mp h0)
  have hfs : (freqsOf (countsOf labels n)).sum = 100 := freqsOf_sum _ hne0
  have hflen : (freqsOf (countsOf labels n)).length = n := by
    rw [freqsOf_length, countsOf_length]
  have hperm : (extract_palette lab kcolors labels n t).Perm
      (buildResults kcolors (freqsOf (countsOf labels n))
        (safeFlags lab kcolors t)) :=
    sortResults_perm _
  constructor
  · intro e he
    have he2 := hperm.mem_iff.mp he
    rcases buildResults_mem _ _ _ _ he2 with ⟨v, _, q, hq, b, rfl⟩
    have hq0 : 0 ≤ q := freqsOf_nonneg _ q hq
    have hfreq : (mkEntry v q b).frequency = round1 q := rfl
    rw [hfreq]
    exact round1_nonneg q hq0
  · have hsum := (hperm.map (fun e => e.frequency)).sum_eq
    have hbr : (buildResults kcolors (freqsOf (countsOf labels n))
          (safeFlags lab kcolors t)).map (fun e => e.frequency)
        = (freqsOf (countsOf labels n)).map round1 :=
      buildResults_map_freq kcolors _ _ (by rw [hflen, hlen])
        (by rw [hflen, safeFlags_length, hlen])
    have hclose := abs_sum_map_round1_sub (freqsOf (countsOf labels n))
    rw [hfs, hflen] at hclose
    have hlenrs : (extract_palette lab kcolors labels n t).length = n :=
      extract_palette_length lab kcolors labels n t hlen
    rw [hsum, hbr, hlenrs]
    calc |((freqsOf (countsOf labels n)).map round1).sum - 100|
        ≤ (n : ℚ) * (1/20) := hclose
      _ ≤ (n : ℚ) * (1/10) := by
          apply mul_le_mul_of_nonneg_left (by norm_num) (by positivity)

/-- Witness for C3 at a concrete input: three pixels in two clusters. -/
theorem C3_frequency_sum_witness :
    (∀ e ∈ extract_palette (fun v => v)
        [((0 : ℚ), (0 : ℚ), (0 : ℚ)), ((1 : ℚ), (1 : ℚ), (1 : ℚ))]
        [0, 1, 1] 2 10, 0 ≤ e.frequency)
      ∧ |((extract_palette (fun v => v)
            [((0 : ℚ), (0 : ℚ), (0 : ℚ)), ((1 : ℚ), (1 : ℚ), (1 : ℚ))]
            [0, 1, 1] 2 10).map (fun e => e.frequency)).sum - 100|
          ≤ ((extract_palette (fun v => v)
              [((0 : ℚ), (0 : ℚ), (0 : ℚ)), ((1 : ℚ), (1 : ℚ), (1 : ℚ))]
              [0, 1, 1] 2 10).length : ℚ) * (1/10) :=
  C3_frequency_sum _ _ _ _ _ rfl (by decide) (by decide)

/-- The byte value of a channel in [0,1] scaled by 255 and truncated lies
in [0, 255]. -/
theorem byte_bounds (q : ℚ) (h0 : 0 ≤ q) (h1 : q ≤ 1) :
    0 ≤ truncQ (q * 255) ∧ truncQ (q * 255) ≤ 255 := by
  unfold truncQ
  rw [if_neg (by push_neg; positivity)]
  constructor
  · exact Int.floor_nonneg.mpr (by positivity)
  · calc ⌊q * 255⌋ ≤ ⌊(255 : ℚ)⌋ := Int.floor_le_floor (by linarith)
      _ = 255 := by norm_num

/-- Each hexadecimal digit character is one of the sixteen uppercase digit
characters. -/
theorem hexDigit_mem (k : ℕ) (hk : k < 16) : hexDigit k ∈ HEX_DIGITS := by
  unfold hexDigit
  have hlen : k < HEX_DIGITS.length := by
    simpa [HEX_DIGITS] using hk
  rw [List.getD_eq_getElem _ _ hlen]
  exact List.getElem_mem hlen

/-- Decoding inverts the digit encoding on digit values. -/
theorem hexVal_hexDigit (k : ℕ) (hk : k < 16) :
    hexVal (hexDigit k) = some k := by
  interval_cases k <;> rfl

/-- The character list written by the format string: a hash sign and the
six digit characters of the three bytes. -/
theorem hexOf_data (r g b : ℕ) :
    (hexOf r g b).data = ['#', hexDigit (r / 16), hexDigit (r % 16),
      hexDigit (g / 16), hexDigit (g % 16), hexDigit (b / 16),
      hexDigit (b % 16)] := by
  simp [hexOf, byteHex, String.data_append]

/-- Decoding inverts the byte encoding on bytes. -/
theorem decodeHex_hexOf (r g b : ℕ) (hr : r < 256) (hg : g < 256)
    (hb : b < 256) :
    decodeHex (hexOf r g b) = some ((r : ℤ), (g : ℤ), (b : ℤ)) := by
  unfold decodeHex
  rw [hexOf_data]
  dsimp only
  rw [if_pos rfl]
  rw [hexVal_hexDigit (r / 16) (by omega), hexVal_hexDigit (r % 16) (by omega),
    hexVal_hexDigit (g / 16) (by omega), hexVal_hexDigit (g % 16) (by omega),
    hexVal_hexDigit (b / 16) (by omega), hexVal_hexDigit (b % 16) (by omega)]
  dsimp only
  have hr2 : r / 16 * 16 + r % 16 = r := by omega
  have hg2 : g / 16 * 16 + g % 16 = g := by omega
  have hb2 : b / 16 * 16 + b % 16 = b := by omega
  rw [hr2, hg2, hb2]

/-- C4: each returned hex string is a hash sign followed by exactly six
uppercase hexadecimal digits, and decoding its three byte pairs yields the
same rgb triple stored in the entry.  The hypothesis is the KMeans
guarantee that centroids are convex combinations of pixels, hence lie in
[0,1] per channel. -/
theorem C4_hex_roundtrip (lab : Vec3 → Vec3) (kcolors : List Vec3)
    (labels : List ℕ) (n : ℕ) (t : ℚ)
    (hc : ∀ c ∈ kcolors, (0 ≤ c.1 ∧ c.1 ≤ 1) ∧ (0 ≤ c.2.1 ∧ c.2.1 ≤ 1)
      ∧ (0 ≤ c.2.2 ∧ c.2.2 ≤ 1)) :
    ∀ e ∈ extract_palette lab kcolors labels n t,
      (∃ ds : List Char, e.hex.data = '#' :: ds ∧ ds.length = 6
          ∧ ∀ ch ∈ ds, ch ∈ HEX_DIGITS)
        ∧ decodeHex e.hex = some e.rgb := by
  intro e he
  have he2 := (sortResults_perm _).mem_iff.mp he
  rcases buildResults_mem _ _ _ _ he2 with ⟨v, hv, q, _, b, rfl⟩
  obtain ⟨⟨h10, h11⟩, ⟨h20, h21⟩, ⟨h30, h31⟩⟩ := hc v hv
  have hb1 := byte_bounds v.1 h10 h11
  have hb2 := byte_bounds v.2.1 h20 h21
  have hb3 := byte_bounds v.2.2 h30 h31
  have hn1 : (truncQ (v.1 * 255)).toNat < 256 := by omega
  have hn2 : (truncQ (v.2.1 * 255)).toNat < 256 := by omega
  have hn3 : (truncQ (v.2.2 * 255)).toNat < 256 := by omega
  have hexeq : (mkEntry v q b).hex
      = hexOf (truncQ (v.1 * 255)).toNat (truncQ (v.2.1 * 255)).toNat
          (truncQ (v.2.2 * 255)).toNat := rfl
  have rgbeq : (mkEntry v q b).rgb
      = (truncQ (v.1 * 255), truncQ (v.2.1 * 255), truncQ (v.2.2 * 255)) :=
    rfl
  constructor
  · refine ⟨[hexDigit ((truncQ (v.1 * 255)).toNat / 16),
      hexDigit ((truncQ (v.1 * 255)).toNat % 16),
      hexDigit ((truncQ (v.2.1 * 255)).toNat / 16),
      hexDigit ((truncQ (v.2.1 * 255)).toNat % 16),
      hexDigit ((truncQ (v.2.2 * 255)).toNat / 16),
      hexDigit ((truncQ (v.2.2 * 255)).toNat % 16)], ?_, rfl, ?_⟩
    · rw [hexeq, hexOf_data]
    · intro ch hch
      simp only [List.mem_cons, List.not_mem_nil, or_false] at hch
      rcases hch with rfl | rfl | rfl | rfl | rfl | rfl <;>
        exact hexDigit_mem _ (by omega)
  · rw [hexeq, rgbeq, decodeHex_hexOf _ _ _ hn1 hn2 hn3,
      Int.toNat_of_nonneg hb1.1, Int.toNat_of_nonneg hb2.1,
      Int.toNat_of_nonneg hb3.1]

/-- Witness for C4 at a concrete input: one centroid with channels 1, 0
and one half. -/
theorem C4_hex_roundtrip_witness :
    (∀ e ∈ extract_palette (fun v => v) [((1 : ℚ), (0 : ℚ), (1/2 : ℚ))] [0] 1 10,
      (∃ ds : List Char, e.hex.data = '#' :: ds ∧ ds.length = 6
          ∧ ∀ ch ∈ ds, ch ∈ HEX_DIGITS)
        ∧ decodeHex e.hex = some e.rgb)
      ∧ (extract_palette (fun v => v)
          [((1 : ℚ), (0 : ℚ), (1/2 : ℚ))] [0] 1 10).length = 1 :=
  ⟨C4_hex_roundtrip _ _ _ _ _ (by norm_num),
   extract_palette_length _ _ _ _ _ rfl⟩

/-- On nonnegative input, truncation toward zero is the floor. -/
theorem truncQ_of_nonneg (q : ℚ) (h : 0 ≤ q) : truncQ q = ⌊q⌋ := by
  unfold truncQ
  rw [if_neg (not_lt.mpr h)]

/-- Scaling the max dimension by target over max lands exactly on the
target. -/
theorem truncQ_max_scale (M r : ℕ) (hM : 0 < M) :
    (truncQ ((M : ℚ) * ((r : ℚ) / (M : ℚ)))).toNat = r := by
  have hMQ : ((M : ℕ) : ℚ) ≠ 0 := Nat.cast_ne_zero.mpr hM.ne.symm
  have hval : (M : ℚ) * ((r : ℚ) / (M : ℚ)) = (r : ℚ) := by
    rw [mul_comm, div_mul_cancel₀ _ hMQ]
  rw [hval, truncQ_of_nonneg _ (by positivity), Int.floor_natCast]
  exact Int.toNat_natCast r

/-- Truncating a nonnegatively scaled dimension stays below any bound that
dominates the scaled value. -/
theorem truncQ_scale_bound (a : ℕ) (s : ℚ) (hs0 : 0 ≤ s) (b : ℕ)
    (hab : (a : ℚ) * s ≤ (b : ℚ)) : (truncQ ((a : ℚ) * s)).toNat ≤ b := by
  have h0 : (0 : ℚ) ≤ (a : ℚ) * s := by positivity
  rw [truncQ_of_nonneg _ h0]
  have hfl : ⌊(a : ℚ) * s⌋ ≤ (b : ℤ) := by
    calc ⌊(a : ℚ) * s⌋ ≤ ⌊((b : ℕ) : ℚ)⌋ := Int.floor_le_floor hab
      _ = (b : ℤ) := Int.floor_natCast b
  omega

/-- C5: with positive dimensions and a positive integer target, the image
is left untouched when its max dimension is at or below the target, is
scaled so that its max dimension equals the target exactly when the max
dimension exceeds the target, and is never scaled up in either dimension. -/
theorem C5_resize_behavior (w h r : ℕ) (hw : 0 < w) (hh : 0 < h)
    (hr : 0 < r) :
    (max w h ≤ r → resizedSize w h (r : ℚ) = (w, h))
      ∧ (r < max w h →
          max (resizedSize w h (r : ℚ)).1 (resizedSize w h (r : ℚ)).2 = r)
      ∧ (resizedSize w h (r : ℚ)).1 ≤ w
      ∧ (resizedSize w h (r : ℚ)).2 ≤ h := by
  have hM0 : 0 < max w h := lt_of_lt_of_le hw (le_max_left w h)
  have hMQ : (0 : ℚ) < ((max w h : ℕ) : ℚ) := by exact_mod_cast hM0
  have hMne : ((max w h : ℕ) : ℚ) ≠ 0 := hMQ.ne.symm
  have hs0 : (0 : ℚ) ≤ (r : ℚ) / ((max w h : ℕ) : ℚ) := by positivity
  have hlt_iff : (r : ℚ) / ((max w h : ℕ) : ℚ) < 1 ↔ r < max w h := by
    rw [div_lt_one hMQ]
    exact Nat.cast_lt
  by_cases hcase : r < max w h
  · have hsc : (r : ℚ) / ((max w h : ℕ) : ℚ) < 1 := hlt_iff.mpr hcase
    have hres : resizedSize w h (r : ℚ)
        = ((truncQ ((w : ℚ) * ((r : ℚ) / ((max w h : ℕ) : ℚ)))).toNat,
           (truncQ ((h : ℚ) * ((r : ℚ) / ((max w h : ℕ) : ℚ)))).toNat) := by
      unfold resizedSize
      rw [if_pos hsc]
    have hshrink : ∀ a : ℕ,
        (truncQ ((a : ℚ) * ((r : ℚ) / ((max w h : ℕ) : ℚ)))).toNat ≤ a := by
      intro a
      apply truncQ_scale_bound a _ hs0 a
      calc (a : ℚ) * ((r : ℚ) / ((max w h : ℕ) : ℚ))
          ≤ (a : ℚ) * 1 := mul_le_mul_of_nonneg_left (le_of_lt hsc)
            (by positivity)
        _ = (a : ℚ) := mul_one _
    have hbound : ∀ a : ℕ, a ≤ max w h →
        (truncQ ((a : ℚ) * ((r : ℚ) / ((max w h : ℕ) : ℚ)))).toNat ≤ r := by
      intro a ha
      apply truncQ_scale_bound a _ hs0 r
      calc (a : ℚ) * ((r : ℚ) / ((max w h : ℕ) : ℚ))
          ≤ ((max w h : ℕ) : ℚ) * ((r : ℚ) / ((max w h : ℕ) : ℚ)) :=
            mul_le_mul_of_nonneg_right (by exact_mod_cast ha) hs0
        _ = (r : ℚ) := by rw [mul_comm, div_mul_cancel₀ _ hMne]
    refine ⟨fun hle => absurd hcase (not_lt.mpr hle), fun _ => ?_, ?_, ?_⟩
    · rw [hres]
      rcases le_total h w with hcw | hcw
      · have hMw : max w h = w := max_eq_left hcw
        have h1 : (truncQ ((w : ℚ) * ((r : ℚ) / ((max w h : ℕ) : ℚ)))).toNat
            = r := by
          rw [hMw]
          exact truncQ_max_scale w r hw
        have h2 := hbound h (hcw.trans (le_max_left w h))
        simp only []
        rw [h1]
        exact max_eq_left h2
      · have hMh : max w h = h := max_eq_right hcw
        have h1 : (truncQ ((h : ℚ) * ((r : ℚ) / ((max w h : ℕ) : ℚ)))).toNat
            = r := by
          rw [hMh]
          exact truncQ_max_scale h r hh
        have h2 := hbound w (le_max_left w h)
        simp only []
        rw [h1]
        exact max_eq_right h2
    · rw [hres]
      exact hshrink w
    · rw [hres]
      exact hshrink h
  · have hres : resizedSize w h (r : ℚ) = (w, h) := by
      unfold resizedSize
      rw [if_neg]
      rw [hlt_iff]
      exact hcase
    rw [hres]
    exact ⟨fun _ => rfl, fun hlt => absurd hlt hcase, le_refl w, le_refl h⟩

/-- Witness for C5 at concrete sizes: an 800 x 600 image at target 400 and
a 300 x 200 image at target 400. -/
theorem C5_resize_behavior_witness :
    ((max 800 600 ≤ 400 → resizedSize 800 600 ((400 : ℕ) : ℚ) = (800, 600))
      ∧ (400 < max 800 600 →
          max (resizedSize 800 600 ((400 : ℕ) : ℚ)).1
            (resizedSize 800 600 ((400 : ℕ) : ℚ)).2 = 400)
      ∧ (resizedSize 800 600 ((400 : ℕ) : ℚ)).1 ≤ 800
      ∧ (resizedSize 800 600 ((400 : ℕ) : ℚ)).2 ≤ 600) :=
  C5_resize_behavior 800 600 400 (by norm_num) (by norm_num) (by norm_num)

/-- Whenever an invocation completes (returns rather than raising), the
returned value is the palette computed from the image data and parameters,
independent of the flags. -/
theorem runPipeline_retval_eq (loadOk : Bool) (lab : Vec3 → Vec3)
    (kcolors : List Vec3) (labels : List ℕ) (n : ℕ) (t : ℚ)
    (save plot plotOk : Bool) (res : List PaletteEntry)
    (h : (runPipeline loadOk lab kcolors labels n t save plot plotOk).retval
      = some res) :
    res = extract_palette lab kcolors labels n t := by
  unfold runPipeline at h
  by_cases hl : loadOk = false
  · rw [if_pos hl] at h
    exact Option.noConfusion h
  · rw [if_neg hl] at h
    by_cases hp : plot = false
    · rw [if_pos hp] at h
      exact (Option.some.inj h).symm
    · rw [if_neg hp] at h
      by_cases hpk : plotOk = false
      · rw [if_pos hpk] at h
        exact Option.noConfusion h
      · rw [if_neg hpk] at h
        exact (Option.some.inj h).symm

/-- C6: two invocations on the same image data and parameters that both
complete return identical palette lists, whatever the save and plot flags
were; the clustering output is a fixed function of the input because
random_state is pinned to 42, and everything after it is deterministic. -/
theorem C6_determinism (lab : Vec3 → Vec3) (kcolors : List Vec3)
    (labels : List ℕ) (n : ℕ) (t : ℚ)
    (lo1 s1 p1 k1 lo2 s2 p2 k2 : Bool) (r1 r2 : List PaletteEntry)
    (h1 : (runPipeline lo1 lab kcolors labels n t s1 p1 k1).retval = some r1)
    (h2 : (runPipeline lo2 lab kcolors labels n t s2 p2 k2).retval = some r2) :
    r1 = r2 := by
  rw [runPipeline_retval_eq lo1 lab kcolors labels n t s1 p1 k1 r1 h1,
    runPipeline_retval_eq lo2 lab kcolors labels n t s2 p2 k2 r2 h2]

/-- Witness for C6 at a concrete input: one run with plotting off, one with
plotting on. -/
theorem C6_determinism_witness :
    extract_palette (fun v => v) [((0 : ℚ), (0 : ℚ), (0 : ℚ))] [0] 1 10
      = extract_palette (fun v => v) [((0 : ℚ), (0 : ℚ), (0 : ℚ))] [0] 1 10 :=
  C6_determinism _ _ _ _ _ true false false true true true true true _ _
    rfl rfl

/-- C7: invocations that complete return the palette list regardless of the
save and plot settings; each entry is the fixed four-field record with rgb
components integers in [0, 255] and a frequency that is an integer number
of tenths; and the list is sorted into descending frequency order. -/
theorem C7_return_shape (lab : Vec3 → Vec3) (kcolors : List Vec3)
    (labels : List ℕ) (n : ℕ) (t : ℚ)
    (hc : ∀ c ∈ kcolors, (0 ≤ c.1 ∧ c.1 ≤ 1) ∧ (0 ≤ c.2.1 ∧ c.2.1 ≤ 1)
      ∧ (0 ≤ c.2.2 ∧ c.2.2 ≤ 1)) :
    (∀ save plot : Bool,
        (runPipeline true lab kcolors labels n t save plot true).retval
          = some (extract_palette lab kcolors labels n t))
      ∧ (∀ e ∈ extract_palette lab kcolors labels n t,
          ((0 ≤ e.rgb.1 ∧ e.rgb.1 ≤ 255) ∧ (0 ≤ e.rgb.2.1 ∧ e.rgb.2.1 ≤ 255)
              ∧ (0 ≤ e.rgb.2.2 ∧ e.rgb.2.2 ≤ 255))
            ∧ ∃ k : ℤ, e.frequency = (k : ℚ) / 10)
      ∧ List.Pairwise (fun a b => b.frequency ≤ a.frequency)
          (extract_palette lab kcolors labels n t) := by
  refine ⟨?_, ?_, ?_⟩
  · intro save plot
    cases plot <;> rfl
  · intro e he
    have he2 := (sortResults_perm _).mem_iff.mp he
    rcases buildResults_mem _ _ _ _ he2 with ⟨v, hv, q, _, b, rfl⟩
    obtain ⟨⟨h10, h11⟩, ⟨h20, h21⟩, ⟨h30, h31⟩⟩ := hc v hv
    have hb1 := byte_bounds v.1 h10 h11
    have hb2 := byte_bounds v.2.1 h20 h21
    have hb3 := byte_bounds v.2.2 h30 h31
    have rgbeq : (mkEntry v q b).rgb
        = (truncQ (v.1 * 255), truncQ (v.2.1 * 255), truncQ (v.2.2 * 255)) :=
      rfl
    have freqeq : (mkEntry v q b).frequency
        = (roundHalfEven (10 * q) : ℚ) / 10 := rfl
    rw [rgbeq, freqeq]
    exact ⟨⟨hb1, hb2, hb3⟩, roundHalfEven (10 * q), rfl⟩
  · have htrans : ∀ a b c : PaletteEntry,
        decide (b.frequency ≤ a.frequency) = true →
        decide (c.frequency ≤ b.frequency) = true →
        decide (c.frequency ≤ a.frequency) = true := by
      intro a b c hab hbc
      rw [decide_eq_true_eq] at *
      exact le_trans hbc hab
    have htot : ∀ a b : PaletteEntry,
        (decide (b.frequency ≤ a.frequency)
          || decide (a.frequency ≤ b.frequency)) = true := by
      intro a b
      rcases le_total b.frequency a.frequency with hab | hab
      · simp [hab]
      · simp [hab]
    have hs := @List.sorted_mergeSort PaletteEntry
      (fun a b => decide (b.frequency ≤ a.frequency)) htrans htot
      (buildResults kcolors (freqsOf (countsOf labels n))
        (safeFlags lab kcolors t))
    exact hs.imp (fun hab => of_decide_eq_true hab)

/-- Witness for C7 at a concrete input: one centroid with channels 1, 0 and
one half. -/
theorem C7_return_shape_witness :
    (∀ save plot : Bool,
        (runPipeline true (fun v => v) [((1 : ℚ), (0 : ℚ), (1/2 : ℚ))] [0] 1 10
          save plot true).retval
          = some (extract_palette (fun v => v)
              [((1 : ℚ), (0 : ℚ), (1/2 : ℚ))] [0] 1 10))
      ∧ (∀ e ∈ extract_palette (fun v => v)
            [((1 : ℚ), (0 : ℚ), (1/2 : ℚ))] [0] 1 10,
          ((0 ≤ e.rgb.1 ∧ e.rgb.1 ≤ 255) ∧ (0 ≤ e.rgb.2.1 ∧ e.rgb.2.1 ≤ 255)
              ∧ (0 ≤ e.rgb.2.2 ∧ e.rgb.2.2 ≤ 255))
            ∧ ∃ k : ℤ, e.frequency = (k : ℚ) / 10)
      ∧ List.Pairwise (fun a b => b.frequency ≤ a.frequency)
          (extract_palette (fun v => v)
            [((1 : ℚ), (0 : ℚ), (1/2 : ℚ))] [0] 1 10) :=
  C7_return_shape _ _ _ _ _ (by norm_num)

/-- C8: when the image load fails, the exception propagates (no returned
value) and nothing at all is written; and a run in which loading succeeded,
save and plot are on, and the plotting stage fails has already written the
text file but not the figure, so there is no atomicity across the two
outputs. -/
theorem C8_write_ordering (lab : Vec3 → Vec3) (kcolors : List Vec3)
    (labels : List ℕ) (n : ℕ) (t : ℚ) (save plot plotOk : Bool) :
    (runPipeline false lab kcolors labels n t save plot plotOk
        = { writes := [], retval := none })
      ∧ (runPipeline true lab kcolors labels n t true true false
          = { writes := [FileWrite.txt], retval := none }) :=
  ⟨rfl, rfl⟩

end ColorBlindSafe
